import Mathlib

/-!
Verification of the JSDoc comment parser (`jsdoc/parser.py`, `jsdoc/models.py`).

Text is modelled as `List Char` (ASCII inputs).  Python string primitives
(`str.strip`, `str.split('\n')`, truthiness) are translated into explicit
structurally recursive functions, and each compiled regular expression of the
parser is translated into a deterministic scanner that reproduces the regex's
leftmost, non-overlapping `findall` semantics (the patterns involved never
need backtracking beyond the deterministic alternatives handled case by case).
Fallible parsing is an `Except` value.
-/

namespace JSDoc

/-- Python whitespace (`\s` for ASCII text): space, tab, newline, carriage
return, vertical tab, form feed. -/
def pySpace (c : Char) : Bool :=
  c = ' ' || c = '\t' || c = '\n' || c = '\r' || c = '\x0B' || c = '\x0C'

/-- Python `\w` on ASCII text: letters, digits, underscore. -/
def wordChar (c : Char) : Bool :=
  c.isAlpha || c.isDigit || c = '_'

/-- Characters allowed in the regex name class `[^[\]\s-]` of
`PARAM_PATTERN` / `PROPERTY_PATTERN`. -/
def nameChar (c : Char) : Bool :=
  !(c = '[' || c = ']' || c = '-' || pySpace c)

/-- `l.rstrip()` : drop trailing Python whitespace. -/
def rstripL (l : List Char) : List Char :=
  (l.reverse.dropWhile pySpace).reverse

/-- `l.strip()` : drop leading and trailing Python whitespace. -/
def pyStrip (l : List Char) : List Char :=
  rstripL (l.dropWhile pySpace)

/-- `a.isPrefixOf b` as a boolean on char lists. -/
def leadsWith : List Char → List Char → Bool
  | [], _ => true
  | _ :: _, [] => false
  | c :: p, d :: l => c = d && leadsWith p l

/-- Find the first occurrence of the literal `pat` in `l`; return the text
before the occurrence and the text after it. -/
def findSub (pat : List Char) : List Char → Option (List Char × List Char)
  | [] => if leadsWith pat [] then some ([], []) else none
  | c :: rest =>
    if leadsWith pat (c :: rest) then some ([], (c :: rest).drop pat.length)
    else (findSub pat rest).map (fun p => (c :: p.1, p.2))

/-- If `l` starts with the character `c`, return the rest of `l`. -/
def charAfter (c : Char) (l : List Char) : Option (List Char) :=
  match l with
  | x :: r => if x = c then some r else none
  | [] => none

/-- `content.split('\n')`, accumulator version. -/
def splitLinesAux : List Char → List Char → List (List Char)
  | [], acc => [acc.reverse]
  | c :: rest, acc =>
    if c = '\n' then acc.reverse :: splitLinesAux rest []
    else splitLinesAux rest (c :: acc)

/-- `content.split('\n')`. -/
def splitLines (l : List Char) : List (List Char) :=
  splitLinesAux l []

/-- `'\n'.join(lines)`. -/
def joinLines : List (List Char) → List Char
  | [] => []
  | [l] => l
  | l :: l2 :: ls => l ++ '\n' :: joinLines (l2 :: ls)

/-- `re.sub(r'^\s*\*\s?', '', line)` : if the first non-whitespace character
is an asterisk, remove the leading whitespace, the asterisk and at most one
whitespace character after it; otherwise return the line unchanged. -/
def subStarLead (l : List Char) : List Char :=
  match charAfter '*' (l.dropWhile pySpace) with
  | some r =>
    match r with
    | c :: r2 => if pySpace c then r2 else c :: r2
    | [] => []
  | none => l

/-- One line of `_clean_comment_content`: `line.strip()` then the asterisk
substitution. -/
def cleanLine (l : List Char) : List Char :=
  subStarLead (pyStrip l)

/-- The accumulation loop of `_clean_comment_content`: clean each line and
skip empty lines until the first kept line. -/
def cleanAccum : List (List Char) → List (List Char) → List (List Char)
  | [], acc => acc.reverse
  | l :: rest, acc =>
    let cl := cleanLine l
    if cl ≠ [] ∨ acc ≠ [] then cleanAccum rest (cl :: acc)
    else cleanAccum rest acc

/-- The trailing loop of `_clean_comment_content`: pop lines whose `strip()`
is empty from the end. -/
def dropTrailingBlank (ls : List (List Char)) : List (List Char) :=
  (ls.reverse.dropWhile (fun l => (pyStrip l).isEmpty)).reverse

/-- `JSDocParser._clean_comment_content`. -/
def cleanCommentContent (content : List Char) : List Char :=
  joinLines (dropTrailingBlank (cleanAccum (splitLines content) []))

/-- `JSDocParser._parse_types` : split on `|`, strip each piece, drop empty
pieces. -/
def splitBarAux : List Char → List Char → List (List Char)
  | [], acc => [acc.reverse]
  | c :: rest, acc =>
    if c = '|' then acc.reverse :: splitBarAux rest []
    else splitBarAux rest (c :: acc)

/-- `JSDocParser._parse_types`. -/
def parseTypes (typeString : List Char) : List (List Char) :=
  ((splitBarAux typeString []).map pyStrip).filter (fun t => t ≠ [])

/- ## Regex scanners

Each compiled pattern of `JSDocParser` becomes a deterministic matcher for
one occurrence plus a generic fuel-driven scan that reproduces `findall`'s
leftmost non-overlapping semantics: find the literal tag keyword, try the
rest of the pattern there, and continue after the match (after the keyword
when the rest of the pattern does not match).  Fuel is the length of the
scanned text; every step consumes at least the tag keyword, so the fuel
never runs out before the scan finishes. -/

/-- Generic `findall` scan: locate the literal `lit`, run `tryM` on the text
after it, collect the produced value and continue at the returned position
(or right after `lit` when `tryM` fails). -/
def scanF (lit : List Char) (tryM : List Char → Option (α × List Char)) :
    Nat → List Char → List α
  | 0, _ => []
  | fuel + 1, l =>
    match findSub lit l with
    | none => []
    | some (_, rest) =>
      match tryM rest with
      | some (a, rest2) => a :: scanF lit tryM fuel rest2
      | none => scanF lit tryM fuel rest

/-- Run a scan with enough fuel for the whole text. -/
def scanAll (lit : List Char) (tryM : List Char → Option (α × List Char))
    (l : List Char) : List α :=
  scanF lit tryM l.length l

/-- The `\s*-?\s*(.*)` tail shared by the tag patterns: optional whitespace,
an optional dash, optional whitespace, then the rest of the line.  Returns
the captured description and the unconsumed text (from the terminating
newline on). -/
def descTail (l : List Char) : List Char × List Char :=
  let r0 := l.dropWhile pySpace
  let r1 := match charAfter '-' r0 with
            | some t => t
            | none => r0
  let r2 := r1.dropWhile pySpace
  (r2.takeWhile (fun c => c ≠ '\n'), r2.dropWhile (fun c => c ≠ '\n'))

/-- The groups of one `PARAM_PATTERN` / `PROPERTY_PATTERN` match: the type
string (group 1), the full name token (group 2), the inner name (group 3)
and the description (group 4). -/
structure ParamMatch where
  typeStr : List Char
  token : List Char
  inner : List Char
  desc : List Char
deriving DecidableEq, Repr

/-- Match `(\[?([^[\]\s-]+(?:=[^[\]]*)?)\]?)` and return (token, inner,
rest).  The `(?:=[^[\]]*)?` alternative can never participate because the
name class itself accepts `=`, so the inner group is exactly the maximal
run of name characters. -/
def matchNameToken (r : List Char) : Option (List Char × List Char × List Char) :=
  match charAfter '[' r with
  | some r1 =>
    let nm := r1.takeWhile nameChar
    if nm = [] then none
    else
      match charAfter ']' (r1.drop nm.length) with
      | some r2 => some ('[' :: nm ++ [']'], nm, r2)
      | none => some ('[' :: nm, nm, r1.drop nm.length)
  | none =>
    let nm := r.takeWhile nameChar
    if nm = [] then none
    else
      match charAfter ']' (r.drop nm.length) with
      | some r2 => some (nm ++ [']'], nm, r2)
      | none => some (nm, nm, r.drop nm.length)

/-- Match `\s+\{([^}]+)\}` : mandatory whitespace, then a brace-delimited
non-empty type string.  Returns the captured type and the rest after the
closing brace. -/
def matchTypePart (l : List Char) : Option (List Char × List Char) :=
  if l.takeWhile pySpace = [] then none
  else
    match charAfter '{' (l.dropWhile pySpace) with
    | none => none
    | some r2 =>
      let ty := r2.takeWhile (fun c => c ≠ '}')
      if ty = [] then none
      else
        match charAfter '}' (r2.dropWhile (fun c => c ≠ '}')) with
        | none => none
        | some r4 => some (ty, r4)

/-- Match the part of `PARAM_PATTERN` after the `@param` literal:
`\s+\{([^}]+)\}\s+(\[?([^[\]\s-]+(?:=[^[\]]*)?)\]?)\s*-?\s*(.*)`. -/
def matchParamTail (l : List Char) : Option (ParamMatch × List Char) :=
  match matchTypePart l with
  | none => none
  | some (ty, r4) =>
    if r4.takeWhile pySpace = [] then none
    else
      match matchNameToken (r4.dropWhile pySpace) with
      | some (token, inner, r5) =>
        let p := descTail r5
        some (⟨ty, token, inner, p.1⟩, p.2)
      | none => none

/-- Match the part of `RETURN_PATTERN` after the `@return` literal:
`s?\s+\{([^}]+)\}\s*-?\s*(.*)`. -/
def matchReturnTail (l : List Char) : Option ((List Char × List Char) × List Char) :=
  let l1 := match charAfter 's' l with
            | some r => r
            | none => l
  match matchTypePart l1 with
  | none => none
  | some (ty, r4) =>
    let p := descTail r4
    some ((ty, p.1), p.2)

/-- Match the part of `THROWS_PATTERN` after the `@throws` literal:
`\s+\{([^}]+)\}\s*-?\s*(.*)`. -/
def matchThrowsTail (l : List Char) : Option ((List Char × List Char) × List Char) :=
  match matchTypePart l with
  | none => none
  | some (ty, r4) =>
    let p := descTail r4
    some ((ty, p.1), p.2)

/-- Match the part of `TYPEDEF_PATTERN` after the `@typedef` literal:
`\s+\{([^}]+)\}\s+([^\s]+)(?:\s*-?\s*([^@]*))?`.  Returns type string, name
and the raw (unstripped) description group. -/
def matchTypedefTail (l : List Char) :
    Option ((List Char × List Char × List Char) × List Char) :=
  match matchTypePart l with
  | none => none
  | some (ty, r4) =>
    if r4.takeWhile pySpace = [] then none
    else
      let r5 := r4.dropWhile pySpace
      let nm := r5.takeWhile (fun c => !pySpace c)
      if nm = [] then none
      else
        let r6 := (r5.drop nm.length).dropWhile pySpace
        let r7 := match charAfter '-' r6 with
                  | some t => t
                  | none => r6
        let r8 := r7.dropWhile pySpace
        let ds := r8.takeWhile (fun c => c ≠ '@')
        some ((ty, nm, ds), r8.dropWhile (fun c => c ≠ '@'))

/-- Raw match lists for each tag pattern. -/
def paramMatches (content : List Char) : List ParamMatch :=
  scanAll "@param".data matchParamTail content

/-- Raw `PROPERTY_PATTERN` matches. -/
def propertyMatches (content : List Char) : List ParamMatch :=
  scanAll "@property".data matchParamTail content

/-- Raw `RETURN_PATTERN` matches. -/
def returnMatches (content : List Char) : List (List Char × List Char) :=
  scanAll "@return".data matchReturnTail content

/-- Raw `THROWS_PATTERN` matches. -/
def throwsMatches (content : List Char) : List (List Char × List Char) :=
  scanAll "@throws".data matchThrowsTail content

/-- Raw `TYPEDEF_PATTERN` matches. -/
def typedefMatches (content : List Char) : List (List Char × List Char × List Char) :=
  scanAll "@typedef".data matchTypedefTail content

/- ## Data model (`jsdoc/models.py`) -/

/-- `models.Description`. -/
structure Description where
  full : List Char
  summary : List Char
deriving DecidableEq, Repr

/-- `models.Parameter`. -/
structure Parameter where
  types : List (List Char)
  name : List Char
  description : List Char
  optional : Bool
deriving DecidableEq, Repr

/-- `models.ReturnValue`. -/
structure ReturnValue where
  types : List (List Char)
  description : List Char
deriving DecidableEq, Repr

/-- `models.Property`. -/
structure Property where
  types : List (List Char)
  name : List Char
  description : List Char
  optional : Bool
deriving DecidableEq, Repr

/-- `models.TypeDef`. -/
structure TypeDef where
  types : List (List Char)
  name : List Char
  description : Option (List Char)
  properties : List Property
deriving DecidableEq, Repr

/-- `models.Example`. -/
structure Example where
  code : List Char
  description : Option (List Char)
deriving DecidableEq, Repr

/-- `models.Throws`. -/
structure Throws where
  types : List (List Char)
  description : List Char
deriving DecidableEq, Repr

/- ## Tag extractors (`JSDocParser._parse_*`) -/

/-- Build a `Parameter` from one `PARAM_PATTERN` match: union-split the type,
truncate the inner name at the first `=`, strip the description, and set
`optional` iff the full name token starts with `[` and ends with `]`. -/
def paramOfMatch (m : ParamMatch) : Parameter :=
  { types := parseTypes m.typeStr
    name := m.inner.takeWhile (fun c => c ≠ '=')
    description := pyStrip m.desc
    optional := (m.token.head? == some '[') && (m.token.getLast? == some ']') }

/-- `JSDocParser._parse_parameters`. -/
def parseParameters (content : List Char) : List Parameter :=
  (paramMatches content).map paramOfMatch

/-- Build a `Property` from one `PROPERTY_PATTERN` match (same fields as a
parameter). -/
def propOfMatch (m : ParamMatch) : Property :=
  { types := parseTypes m.typeStr
    name := m.inner.takeWhile (fun c => c ≠ '=')
    description := pyStrip m.desc
    optional := (m.token.head? == some '[') && (m.token.getLast? == some ']') }

/-- `JSDocParser._parse_properties`. -/
def parseProperties (content : List Char) : List Property :=
  (propertyMatches content).map propOfMatch

/-- `JSDocParser._parse_returns`. -/
def parseReturns (content : List Char) : List ReturnValue :=
  (returnMatches content).map (fun m => ⟨parseTypes m.1, pyStrip m.2⟩)

/-- `JSDocParser._parse_throws`. -/
def parseThrows (content : List Char) : List Throws :=
  (throwsMatches content).map (fun m => ⟨parseTypes m.1, pyStrip m.2⟩)

/-- `JSDocParser._parse_typedefs`: every typedef of the block gets all of the
block's properties when the block holds exactly one typedef match, and an
empty list otherwise. -/
def parseTypedefs (content : List Char) : List TypeDef :=
  let ms := typedefMatches content
  let allProps := parseProperties content
  ms.map (fun m =>
    { types := parseTypes m.1
      name := m.2.1
      description := if m.2.2 = [] then none else some (pyStrip m.2.2)
      properties := if ms.length = 1 then allProps else [] })

/-- Take characters up to the first `@\w+` tag marker (the `re.search` used
to terminate an example span). -/
def takeUntilTag : List Char → List Char
  | [] => []
  | c :: rest =>
    if c = '@' then
      match rest with
      | r0 :: _ => if wordChar r0 then [] else c :: takeUntilTag rest
      | [] => [c]
    else c :: takeUntilTag rest

/-- Per-line cleaning of an example span: `rstrip` then strip one leading
decoration (`re.sub(r'^\s*\*\s?', '', line.rstrip())`), preserving the code
indentation of lines without an asterisk. -/
def exCleanLine (l : List Char) : List Char :=
  subStarLead (rstripL l)

/-- One step of `_parse_examples`: the text after `@example` and all
following whitespace up to the next `@\w+` marker, cleaned line by line with
leading and trailing blank lines dropped; blank spans produce no record. -/
def tryExample (l : List Char) : Option (Option Example × List Char) :=
  let start := l.dropWhile pySpace
  let span := pyStrip (takeUntilTag start)
  if span = [] then some (none, start)
  else
    let cls := (splitLines span).map exCleanLine
    let cls1 := cls.dropWhile (fun x => x = [])
    let cls2 := (cls1.reverse.dropWhile (fun x => x = [])).reverse
    some ((if cls2 = [] then none else some ⟨joinLines cls2, none⟩), start)

/-- `JSDocParser._parse_examples`. -/
def parseExamples (content : List Char) : List Example :=
  (scanAll "@example".data tryExample content).filterMap id

/- ## Description segmenter (`_extract_description_parts`) -/

/-- `line.strip().startswith('@')`. -/
def tagLineB (l : List Char) : Bool :=
  (pyStrip l).head? == some '@'

/-- `JSDocParser._extract_description_parts`. -/
def extractDescriptionParts (content : List Char) : Option Description :=
  let descLines := (splitLines content).takeWhile (fun l => !tagLineB l)
  if descLines.isEmpty || descLines.all (fun l => (pyStrip l).isEmpty) then none
  else
    let full := pyStrip (joinLines descLines)
    if full.isEmpty then none
    else
      let summary0 := full.takeWhile (fun c => c ≠ '.')
      let summary1 :=
        if summary0.getLast? ≠ some '.' ∧ full.contains '.'
        then summary0 ++ ['.'] else summary0
      let summary2 :=
        if summary1 = full then pyStrip ((splitLines full).headD []) else summary1
      some ⟨full, summary2⟩

/- ## Comment blocks (`COMMENT_BLOCK_PATTERN.finditer`) -/

/-- Fuel-driven scan for `/\*\*(.*?)\*/` with `DOTALL`: repeatedly find the
opening marker, then the nearest closing marker after it.  Returns the list
of block interiors and the text after the end of the last block (the whole
input when there is no block). -/
def extractBlocksF : Nat → List Char → List (List Char) × List Char
  | 0, l => ([], l)
  | fuel + 1, l =>
    match findSub "/**".data l with
    | none => ([], l)
    | some (_, afterOpen) =>
      match findSub "*/".data afterOpen with
      | none => ([], l)
      | some (content, afterClose) =>
        let r := extractBlocksF fuel afterClose
        (content :: r.1, r.2)

/-- All comment blocks of the input and the trailing text after the last
one. -/
def extractBlocks (l : List Char) : List (List Char) × List Char :=
  extractBlocksF l.length l

/- ## Trailing-code function-name heuristic -/

/-- JavaScript identifier characters (ASCII). -/
def identChar (c : Char) : Bool :=
  c.isAlpha || c.isDigit || c = '_' || c = '$'

/-- Try to consume the keyword `w` followed by at least one whitespace
character, returning the text after the whitespace. -/
def kwTake (w : List Char) (l : List Char) : Option (List Char) :=
  if leadsWith w l then
    match l.drop w.length with
    | c :: r => if pySpace c then some (r.dropWhile pySpace) else none
    | [] => none
  else none

/-- Consume an optional keyword. -/
def afterKwOpt (w : List Char) (l : List Char) : List Char :=
  match kwTake w l with
  | some r => r
  | none => l

/-- Whether `pat` occurs as a substring of `l`. -/
def containsSub (pat l : List Char) : Bool :=
  (findSub pat l).isSome

/-- Modelled from the spec: shape 1 of the function-name heuristic, which is
absent from `src/` (only `src/tests/test_parser.py` exercises
`function_name`).  A plain or exported, sync or async, named function
declaration at the top of the trailing code: optional `export`, optional
`async`, the `function` keyword, an identifier, then an opening
parenthesis. -/
def matchShape1 (l0 : List Char) : Option (List Char) :=
  let l := afterKwOpt "async".data (afterKwOpt "export".data (l0.dropWhile pySpace))
  match kwTake "function".data l with
  | none => none
  | some r =>
    let nm := r.takeWhile identChar
    if nm = [] then none
    else if ((r.drop nm.length).dropWhile pySpace).head? = some '(' then some nm
    else none

/-- Modelled from the spec: shape 2 of the function-name heuristic (absent
from `src/`).  A variable binding (`const`, `let` or `var`) whose right-hand
side is a function expression or, on the binding's first line, an arrow
expression (optionally `async`); the bound identifier is captured. -/
def matchShape2 (l0 : List Char) : Option (List Char) :=
  let l := l0.dropWhile pySpace
  let kwd := match kwTake "const".data l with
             | some r => some r
             | none =>
               match kwTake "let".data l with
               | some r => some r
               | none => kwTake "var".data l
  match kwd with
  | none => none
  | some r =>
    let nm := r.takeWhile identChar
    if nm = [] then none
    else
      match charAfter '=' ((r.drop nm.length).dropWhile pySpace) with
      | some r2 =>
        let rhs := afterKwOpt "async".data (r2.dropWhile pySpace)
        if leadsWith "function".data rhs
            || containsSub "=>".data (rhs.takeWhile (fun c => c ≠ '\n'))
        then some nm else none
      | none => none

/-- Modelled from the spec: shape 3 of the function-name heuristic (absent
from `src/`).  A method-shorthand definition at the start of the trailing
code: optional `static`, optional `async`, an identifier followed either by
an opening parenthesis or by a colon and the (optionally `async`) `function`
keyword. -/
def matchShape3 (l0 : List Char) : Option (List Char) :=
  let l := afterKwOpt "async".data (afterKwOpt "static".data (l0.dropWhile pySpace))
  let nm := l.takeWhile identChar
  if nm = [] then none
  else
    let r := (l.drop nm.length).dropWhile pySpace
    if r.head? = some '(' then some nm
    else
      match charAfter ':' r with
      | some r2 =>
        let rhs := afterKwOpt "async".data (r2.dropWhile pySpace)
        if leadsWith "function".data rhs then some nm else none
      | none => none

/-- Modelled from the spec: the trailing-code function-name heuristic, which
is absent from `src/` (the tests assert `result.function_name` but neither
`parser.py` nor `models.py` implements it).  The three declaration shapes
are tried independently in priority order and the first structural match
wins; when none match the result is `none`. -/
def extractFunctionName (code : List Char) : Option (List Char) :=
  match matchShape1 code with
  | some n => some n
  | none =>
    match matchShape2 code with
    | some n => some n
    | none => matchShape3 code

/- ## The `parse` operation -/

/-- The two failure conditions of `parse` (`ValueError` messages). -/
inductive ParseError where
  | emptyInput
  | invalidFormat
deriving DecidableEq, Repr

/-- `models.JSDocComment`, extended with the `functionName` field that the
spec requires of every `ParsedComment` (modelled from the spec; the
`src/` model lacks the field even though the tests read it). -/
structure JSDocComment where
  description : Option Description
  params : List Parameter
  returns : List ReturnValue
  typedefs : List TypeDef
  properties : List Property
  examples : List Example
  throws : List Throws
  code : Option (List Char)
  functionName : Option (List Char)
  raw_comment : List Char
deriving DecidableEq, Repr

/-- The main-block test of `parse`: the block's cleaned content yields at
least one param, return, example or throws record. -/
def hasDoc (c : List Char) : Bool :=
  !(parseParameters c).isEmpty || !(parseReturns c).isEmpty
    || !(parseExamples c).isEmpty || !(parseThrows c).isEmpty

/-- The block-selection loop of `parse`: the cleaned content of the first
block with function documentation, if any. -/
def findMainContent : List (List Char) → Option (List Char)
  | [] => none
  | b :: bs =>
    let c := cleanCommentContent b
    if hasDoc c then some c else findMainContent bs

instance : DecidableEq (Except ParseError JSDocComment) := fun a b =>
  match a, b with
  | .ok x, .ok y =>
    if h : x = y then isTrue (by rw [h]) else isFalse (fun hc => h (Except.ok.inj hc))
  | .ok _, .error _ => isFalse (fun hc => Except.noConfusion hc)
  | .error _, .ok _ => isFalse (fun hc => Except.noConfusion hc)
  | .error e, .error f =>
    if h : e = f then isTrue (by rw [h]) else isFalse (fun hc => h (Except.error.inj hc))

/-- The result `parse` builds when the input has no `/** ... */` block but
its trimmed text starts with `*`: the whole input is treated as one
undelimited block and no trailing code is extracted. -/
def parseNoBlockResult (jsdocString : List Char) : JSDocComment :=
  let cc := cleanCommentContent jsdocString
  { description := extractDescriptionParts cc
    params := parseParameters cc
    returns := parseReturns cc
    typedefs := parseTypedefs cc
    properties := parseProperties cc
    examples := parseExamples cc
    throws := parseThrows cc
    code := none
    functionName := none
    raw_comment := jsdocString }

/-- The result `parse` builds when the input contains comment blocks:
trailing code comes after the last block, the main block is the first one
with function documentation (falling back to the first block), and typedefs
are collected from every block. -/
def parseBlocksResult (jsdocString tl : List Char) (blocks : List (List Char))
    (includeCode : Bool) : JSDocComment :=
  let code := if includeCode then
                (if pyStrip tl = [] then none else some (pyStrip tl))
              else none
  let tds := ((blocks.map cleanCommentContent).map parseTypedefs).flatten
  match findMainContent blocks with
  | some mc =>
    { description := extractDescriptionParts mc
      params := parseParameters mc
      returns := parseReturns mc
      typedefs := tds
      properties := parseProperties mc
      examples := parseExamples mc
      throws := parseThrows mc
      code := code
      functionName := code.bind extractFunctionName
      raw_comment := jsdocString }
  | none =>
    let mc := cleanCommentContent (blocks.headD [])
    { description := extractDescriptionParts mc
      params := []
      returns := []
      typedefs := tds
      properties := parseProperties mc
      examples := []
      throws := []
      code := code
      functionName := code.bind extractFunctionName
      raw_comment := jsdocString }

/-- `jsdoc.parser.parse`. -/
def parse (jsdocString : List Char) (includeCode : Bool) :
    Except ParseError JSDocComment :=
  if pyStrip jsdocString = [] then .error .emptyInput
  else if (extractBlocks jsdocString).1 = [] then
    if (pyStrip jsdocString).head? = some '*' then
      .ok (parseNoBlockResult jsdocString)
    else .error .invalidFormat
  else
    .ok (parseBlocksResult jsdocString (extractBlocks jsdocString).2
      (extractBlocks jsdocString).1 includeCode)

/- ## Helper lemmas -/

theorem length_dropWhile_pySpace_le (l : List Char) :
    (l.dropWhile pySpace).length ≤ l.length := by
  induction l with
  | nil => simp [List.dropWhile]
  | cons c r ih =>
    by_cases h : pySpace c
    · simp only [List.dropWhile, h]
      simp only [List.length_cons]
      omega
    · simp [List.dropWhile, h]

theorem length_rstripL_le (l : List Char) : (rstripL l).length ≤ l.length := by
  unfold rstripL
  calc (l.reverse.dropWhile pySpace).reverse.length
      = (l.reverse.dropWhile pySpace).length := List.length_reverse _
    _ ≤ l.reverse.length := length_dropWhile_pySpace_le _
    _ = l.length := List.length_reverse _

theorem length_pyStrip_le (l : List Char) : (pyStrip l).length ≤ l.length :=
  le_trans (length_rstripL_le _) (length_dropWhile_pySpace_le _)

theorem dropWhile_eq_self_of_pyStrip_eq (l : List Char) (h : pyStrip l = l) :
    l.dropWhile pySpace = l := by
  cases l with
  | nil => rfl
  | cons c r =>
    by_cases hc : pySpace c
    · exfalso
      have h1 : (pyStrip (c :: r)).length ≤ r.length := by
        unfold pyStrip
        calc (rstripL ((c :: r).dropWhile pySpace)).length
            ≤ ((c :: r).dropWhile pySpace).length := length_rstripL_le _
          _ = (r.dropWhile pySpace).length := by simp [List.dropWhile, hc]
          _ ≤ r.length := length_dropWhile_pySpace_le _
      rw [h] at h1
      simp only [List.length_cons] at h1
      omega
    · simp [List.dropWhile, hc]

theorem cleanLine_eq_self (l : List Char) (h1 : pyStrip l = l)
    (h2 : l.head? ≠ some '*') : cleanLine l = l := by
  unfold cleanLine
  rw [h1]
  unfold subStarLead
  rw [dropWhile_eq_self_of_pyStrip_eq l h1]
  cases l with
  | nil => rfl
  | cons c r =>
    have hc : c ≠ '*' := by
      intro he
      exact h2 (by simp [he])
    simp [charAfter, hc]

theorem cleanAccum_fixed (ls : List (List Char)) (acc : List (List Char))
    (hf : ∀ l ∈ ls, cleanLine l = l) (ha : acc ≠ []) :
    cleanAccum ls acc = acc.reverse ++ ls := by
  induction ls generalizing acc with
  | nil => simp [cleanAccum]
  | cons l rest ih =>
    have hl : cleanLine l = l := hf l (by simp)
    have hrest : ∀ x ∈ rest, cleanLine x = x := fun x hx => hf x (by simp [hx])
    simp only [cleanAccum, hl]
    rw [if_pos (Or.inr ha)]
    rw [ih (l :: acc) hrest (by simp)]
    simp

theorem splitLinesAux_ne_nil (t acc : List Char) : splitLinesAux t acc ≠ [] := by
  induction t generalizing acc with
  | nil => simp [splitLinesAux]
  | cons c rest ih =>
    by_cases h : c = '\n'
    · simp [splitLinesAux, h]
    · simpa [splitLinesAux, h] using ih (c :: acc)

theorem joinLines_cons_cons (a b : List Char) (ls : List (List Char)) :
    joinLines (a :: b :: ls) = a ++ '\n' :: joinLines (b :: ls) := rfl

theorem joinLines_splitLinesAux (t acc : List Char) :
    joinLines (splitLinesAux t acc) = acc.reverse ++ t := by
  induction t generalizing acc with
  | nil => simp [splitLinesAux, joinLines]
  | cons c rest ih =>
    by_cases h : c = '\n'
    · subst h
      have heq : splitLinesAux ('\n' :: rest) acc =
          acc.reverse :: splitLinesAux rest [] := by
        simp [splitLinesAux]
      rw [heq]
      cases he : splitLinesAux rest ([] : List Char) with
      | nil => exact absurd he (splitLinesAux_ne_nil rest [])
      | cons b bs =>
        have hj : joinLines (b :: bs) = rest := by
          have h2 := ih ([] : List Char)
          rw [he] at h2
          simpa using h2
        rw [joinLines_cons_cons, hj]
    · simp only [splitLinesAux, if_neg h]
      rw [ih (c :: acc)]
      simp

theorem joinLines_splitLines (t : List Char) : joinLines (splitLines t) = t := by
  unfold splitLines
  rw [joinLines_splitLinesAux]
  simp

/- ## C3: the text normalizer -/

/-- Already-normalized text: each line is fully trimmed and does not begin
with the decoration asterisk, and the first and last lines are non-blank. -/
def isNormalText (t : List Char) : Prop :=
  (∀ l ∈ splitLines t, pyStrip l = l ∧ l.head? ≠ some '*')
    ∧ (splitLines t).head? ≠ some []
    ∧ (splitLines t).getLast? ≠ some []

instance (t : List Char) : Decidable (isNormalText t) := by
  unfold isNormalText
  infer_instance

theorem cleanCommentContent_of_normal (t : List Char) (h : isNormalText t) :
    cleanCommentContent t = t := by
  obtain ⟨hlines, hhead, hlast⟩ := h
  have hfix : ∀ l ∈ splitLines t, cleanLine l = l := fun l hl =>
    cleanLine_eq_self l (hlines l hl).1 (hlines l hl).2
  unfold cleanCommentContent
  cases hls : splitLines t with
  | nil => exact absurd hls (splitLinesAux_ne_nil t [])
  | cons l0 rest =>
    rw [hls] at hfix hhead hlast hlines
    have hl0 : l0 ≠ [] := by
      intro he
      exact hhead (by simp [he])
    have hacc : cleanAccum (l0 :: rest) [] = l0 :: rest := by
      simp only [cleanAccum, hfix l0 (by simp)]
      rw [if_pos (Or.inl hl0)]
      rw [cleanAccum_fixed rest [l0] (fun x hx => hfix x (by simp [hx])) (by simp)]
      simp
    rw [hacc]
    have hdtb : dropTrailingBlank (l0 :: rest) = l0 :: rest := by
      unfold dropTrailingBlank
      cases hrev : (l0 :: rest).reverse with
      | nil => simp at hrev
      | cons x tl =>
        have hx : (l0 :: rest).getLast? = some x := by
          rw [← List.head?_reverse, hrev]
          rfl
        have hxm : x ∈ l0 :: rest := by
          have hx2 : x ∈ (l0 :: rest).getLast? := by
            rw [Option.mem_def]
            exact hx
          obtain ⟨hne2, hxe⟩ := List.mem_getLast?_eq_getLast hx2
          rw [hxe]
          exact List.getLast_mem hne2
        have hxs : pyStrip x = x := (hlines x hxm).1
        have hxne : x ≠ [] := by
          intro he
          rw [he] at hx
          exact hlast hx
        have hpe : (pyStrip x).isEmpty = false := by
          rw [hxs]
          cases x with
          | nil => exact absurd rfl hxne
          | cons a b => rfl
        rw [List.dropWhile_cons_of_neg (by simp [hpe]), ← hrev]
        simp
    rw [hdtb, ← hls, joinLines_splitLines]

/-- C3 (amended): the comment-content normalizer is not idempotent in
general; it is idempotent on every input whose cleaned output is in normal
form, i.e. no output line keeps leading whitespace or a further decoration
asterisk (the cleaned output always has fully right-trimmed lines with
non-blank first and last lines, but a line such as `*  x` cleans to ` x`,
which a second pass trims further). -/
theorem c3_clean_idempotent_on_normal_output (s : List Char)
    (h : isNormalText (cleanCommentContent s)) :
    cleanCommentContent (cleanCommentContent s) = cleanCommentContent s :=
  cleanCommentContent_of_normal _ h

/-- C3 witness: a concrete decorated comment whose cleaned output is normal,
so cleaning it twice equals cleaning it once. -/
theorem c3_clean_idempotent_on_normal_output_witness :
    isNormalText (cleanCommentContent "* a.\n* b".data) ∧
      cleanCommentContent (cleanCommentContent "* a.\n* b".data) =
        cleanCommentContent "* a.\n* b".data :=
  ⟨by decide, c3_clean_idempotent_on_normal_output _ (by decide)⟩

/-- C3 counterexample: cleaning the line `*  x` yields ` x` (the asterisk
substitution removes only one space), and cleaning again yields `x`, so
`clean (clean s) ≠ clean s`. -/
theorem c3_clean_not_idempotent :
    cleanCommentContent (cleanCommentContent ('*' :: ' ' :: ' ' :: 'x' :: [])) ≠
      cleanCommentContent ('*' :: ' ' :: ' ' :: 'x' :: []) := by
  decide

/- ## C8: the description segmenter -/

theorem mem_of_getLast?_eq {α : Type} (l : List α) (x : α)
    (h : l.getLast? = some x) : x ∈ l := by
  have hx2 : x ∈ l.getLast? := by
    rw [Option.mem_def]
    exact h
  obtain ⟨hne, hxe⟩ := List.mem_getLast?_eq_getLast hx2
  rw [hxe]
  exact List.getLast_mem hne

theorem takeWhile_eq_self_of_all {α : Type} (p : α → Bool) (l : List α)
    (h : ∀ a ∈ l, p a = true) : l.takeWhile p = l := by
  induction l with
  | nil => rfl
  | cons a r ih =>
    simp [List.takeWhile_cons, h a (by simp), ih (fun b hb => h b (by simp [hb]))]

theorem pyStrip_eq_nil_iff (l : List Char) :
    pyStrip l = [] ↔ ∀ c ∈ l, pySpace c = true := by
  unfold pyStrip rstripL
  rw [List.reverse_eq_nil_iff, List.dropWhile_eq_nil_iff]
  constructor
  · intro h c hc
    by_cases hs : pySpace c
    · exact hs
    · have hcd : c ∈ l.dropWhile pySpace := by
        have hsplit := List.takeWhile_append_dropWhile (p := pySpace) (l := l)
        rw [← hsplit] at hc
        rcases List.mem_append.mp hc with h1 | h1
        · exact absurd (List.mem_takeWhile_imp h1) hs
        · exact h1
      exact h c (by simpa using hcd)
  · intro h c hc
    rw [List.mem_reverse] at hc
    exact h c ((List.dropWhile_sublist _).subset hc)

theorem mem_joinLines (ls : List (List Char)) (l : List Char) (c : Char)
    (hl : l ∈ ls) (hc : c ∈ l) : c ∈ joinLines ls := by
  induction ls with
  | nil => simp at hl
  | cons a rest ih =>
    cases rest with
    | nil =>
      simp at hl
      subst hl
      simpa [joinLines] using hc
    | cons b bs =>
      rw [joinLines_cons_cons]
      rcases List.mem_cons.mp hl with h1 | h1
      · subst h1
        exact List.mem_append.mpr (Or.inl hc)
      · exact List.mem_append.mpr (Or.inr (List.mem_cons.mpr (Or.inr (ih h1))))

theorem pyStrip_ne_nil_of_mem (t : List Char) (c : Char) (hc : c ∈ t)
    (hs : pySpace c = false) : pyStrip t ≠ [] := by
  intro h
  rw [pyStrip_eq_nil_iff] at h
  rw [h c hc] at hs
  exact Bool.noConfusion hs

theorem getLast?_takeWhile_ne_dot (full : List Char) :
    ((full.takeWhile (fun ch => ch ≠ '.')).getLast?) ≠ some '.' := by
  intro h
  have hm := mem_of_getLast?_eq _ _ h
  have := List.mem_takeWhile_imp hm
  simp at this

/-- The description segmenter as the spec words it: `None` exactly when the
text before the first tag-marker line is entirely blank; otherwise `full` is
the joined, trimmed leading text, and `summary` is the prefix of `full` up
to and including the first period, falling back to the (trimmed) first line
of `full` exactly when that prefix equals the entirety of `full` (or when no
period exists). -/
def specSegmentDescription (content : List Char) : Option Description :=
  let pre := (splitLines content).takeWhile (fun l => !tagLineB l)
  if ∀ l ∈ pre, pyStrip l = [] then none
  else
    let full := pyStrip (joinLines pre)
    let upto := (full.takeWhile (fun ch => ch ≠ '.')) ++ ['.']
    some ⟨full,
      if full.contains '.' ∧ upto ≠ full then upto
      else pyStrip ((splitLines full).headD [])⟩

/-- C8: the description segmenter returns `None` iff the text before the
first tag-marker line is entirely blank; otherwise `full` is the joined,
trimmed leading text and `summary` is the prefix of `full` up to and
including the first period, with the first-line fallback exactly when that
prefix is all of `full` (or no period exists).  Stated as equality with the
spec-worded segmenter. -/
theorem c8_description_segmenter (c : List Char) :
    extractDescriptionParts c = specSegmentDescription c := by
  unfold extractDescriptionParts specSegmentDescription
  simp only []
  set pre := (splitLines c).takeWhile (fun l => !tagLineB l) with hpre
  by_cases hAll : ∀ l ∈ pre, pyStrip l = []
  · rw [if_pos hAll]
    have hb : (pre.isEmpty || pre.all fun l => (pyStrip l).isEmpty) = true := by
      rw [Bool.or_eq_true]
      right
      rw [List.all_eq_true]
      intro l hl
      rw [List.isEmpty_iff]
      exact hAll l hl
    rw [if_pos hb]
  · rw [if_neg hAll]
    have hex : ∃ l ∈ pre, pyStrip l ≠ [] := by
      by_contra hno
      push_neg at hno
      exact hAll hno
    obtain ⟨l, hlmem, hlne⟩ := hex
    have hb : (pre.isEmpty || pre.all fun l => (pyStrip l).isEmpty) = false := by
      rw [Bool.or_eq_false_iff]
      constructor
      · rw [Bool.eq_false_iff]
        intro he
        rw [List.isEmpty_iff] at he
        rw [he] at hlmem
        simp at hlmem
      · rw [Bool.eq_false_iff]
        intro hall
        rw [List.all_eq_true] at hall
        have := hall l hlmem
        rw [List.isEmpty_iff] at this
        exact hlne this
    rw [if_neg (by simp [hb])]
    have hfullne : pyStrip (joinLines pre) ≠ [] := by
      have hch : ∃ ch ∈ l, pySpace ch = false := by
        by_contra hno
        push_neg at hno
        apply hlne
        rw [pyStrip_eq_nil_iff]
        intro x hx
        have := hno x hx
        simpa using this
      obtain ⟨ch, hchm, hchs⟩ := hch
      exact pyStrip_ne_nil_of_mem _ ch (mem_joinLines pre l ch hlmem hchm) hchs
    rw [if_neg (by rw [List.isEmpty_iff]; exact hfullne)]
    set full := pyStrip (joinLines pre) with hfull
    set summary0 := full.takeWhile (fun ch => ch ≠ '.') with hsum0
    by_cases hdot : full.contains '.' = true
    · have hcond : summary0.getLast? ≠ some '.' ∧ full.contains '.' := by
        exact ⟨getLast?_takeWhile_ne_dot full, hdot⟩
      rw [if_pos hcond]
      by_cases heq : summary0 ++ ['.'] = full
      · rw [if_pos heq, if_neg (by simp [heq])]
      · rw [if_neg heq, if_pos ⟨hdot, heq⟩]
    · have hnm : ('.' : Char) ∉ full := by
        intro hm
        apply hdot
        rw [show full.contains '.' = full.elem '.' from rfl, List.elem_eq_mem]
        simpa using hm
      have hs0 : summary0 = full := by
        rw [hsum0]
        apply takeWhile_eq_self_of_all
        intro a ha
        simp only [decide_eq_true_eq]
        intro he
        rw [he] at ha
        exact hnm ha
      have hcond : ¬ (summary0.getLast? ≠ some '.' ∧ full.contains '.') := by
        intro hcc
        exact hdot hcc.2
      rw [if_neg hcond, if_pos hs0, if_neg (by intro hcc; exact hdot hcc.1)]

/- ## C2: the failure conditions of parse -/

/-- C2: `parse` fails with the empty-input condition exactly when the input
is entirely whitespace, fails with the invalid-format condition exactly when
the (non-blank) input contains no delimited comment block and its trimmed
text does not begin with the decoration marker `*`, and succeeds on every
other input. -/
theorem c2_parse_error_conditions (s : List Char) (ic : Bool) :
    (parse s ic = .error .emptyInput ↔ pyStrip s = [])
      ∧ (parse s ic = .error .invalidFormat ↔
          (pyStrip s ≠ [] ∧ (extractBlocks s).1 = [] ∧ (pyStrip s).head? ≠ some '*'))
      ∧ (pyStrip s ≠ [] → ((extractBlocks s).1 ≠ [] ∨ (pyStrip s).head? = some '*') →
          ∃ r, parse s ic = .ok r) := by
  unfold parse
  by_cases h1 : pyStrip s = []
  · rw [if_pos h1]
    exact ⟨by simp [h1], by simp [h1], fun hs _ => absurd h1 hs⟩
  · rw [if_neg h1]
    by_cases hb : (extractBlocks s).1 = []
    · rw [if_pos hb]
      by_cases h2 : (pyStrip s).head? = some '*'
      · rw [if_pos h2]
        exact ⟨by simp [h1], by simp [h2], fun _ _ => ⟨_, rfl⟩⟩
      · rw [if_neg h2]
        refine ⟨by simp [h1], by simp [hb, h1, h2], ?_⟩
        intro _ hd
        rcases hd with hd | hd
        · exact absurd hb hd
        · exact absurd hd h2
    · rw [if_neg hb]
      exact ⟨by simp [h1], by simp [hb], fun _ _ => ⟨_, rfl⟩⟩

/-- C2 witness: a concrete non-blank input without a delimited block whose
trimmed text begins with `*` parses successfully. -/
theorem c2_parse_error_conditions_witness :
    ∃ r, parse "* x".data true = Except.ok r :=
  (c2_parse_error_conditions "* x".data true).2.2 (by decide) (Or.inr (by decide))

/- ## The shape of successful parses -/

theorem parse_ok_shape (s : List Char) (ic : Bool) (r : JSDocComment)
    (h : parse s ic = .ok r) :
    ((extractBlocks s).1 = [] ∧ r = parseNoBlockResult s)
      ∨ ((extractBlocks s).1 ≠ [] ∧
          r = parseBlocksResult s (extractBlocks s).2 (extractBlocks s).1 ic) := by
  unfold parse at h
  by_cases h1 : pyStrip s = []
  · rw [if_pos h1] at h
    exact absurd h (by simp)
  · rw [if_neg h1] at h
    by_cases hb : (extractBlocks s).1 = []
    · rw [if_pos hb] at h
      by_cases h2 : (pyStrip s).head? = some '*'
      · rw [if_pos h2] at h
        exact Or.inl ⟨hb, (Except.ok.inj h).symm⟩
      · rw [if_neg h2] at h
        exact absurd h (by simp)
    · rw [if_neg hb] at h
      exact Or.inr ⟨hb, (Except.ok.inj h).symm⟩

theorem findMainContent_eq_find? (bs : List (List Char)) :
    findMainContent bs = (bs.map cleanCommentContent).find? hasDoc := by
  induction bs with
  | nil => rfl
  | cons b rest ih =>
    simp only [findMainContent, List.map_cons]
    by_cases h : hasDoc (cleanCommentContent b)
    · rw [if_pos h, List.find?_cons_of_pos _ h]
    · rw [if_neg h, List.find?_cons_of_neg _ (by simpa using h), ih]

/- ## C10: example descriptions are never populated -/

theorem tryExample_desc_none (l : List Char) (a : Option Example) (r : List Char)
    (h : tryExample l = some (a, r)) (e : Example) (he : a = some e) :
    e.description = none := by
  unfold tryExample at h
  dsimp only at h
  split at h
  · obtain ⟨ha, _⟩ := Prod.mk.inj (Option.some.inj h)
    rw [← ha] at he
    exact absurd he (by simp)
  · obtain ⟨ha, _⟩ := Prod.mk.inj (Option.some.inj h)
    rw [← ha] at he
    split at he
    · exact absurd he (by simp)
    · rw [← Option.some.inj he]

theorem scanF_example_desc_none (fuel : Nat) (l : List Char) (a : Option Example)
    (ha : a ∈ scanF "@example".data tryExample fuel l) (e : Example)
    (he : a = some e) : e.description = none := by
  induction fuel generalizing l with
  | zero => simp [scanF] at ha
  | succ n ih =>
    rw [scanF] at ha
    cases hF : findSub "@example".data l with
    | none =>
      rw [hF] at ha
      simp at ha
    | some p =>
      obtain ⟨pre, rest⟩ := p
      rw [hF] at ha
      dsimp only at ha
      cases hT : tryExample rest with
      | none =>
        rw [hT] at ha
        exact ih rest ha
      | some q =>
        obtain ⟨a2, rest2⟩ := q
        rw [hT] at ha
        dsimp only at ha
        rcases List.mem_cons.mp ha with h1 | h1
        · exact tryExample_desc_none rest a2 rest2 hT e (by rw [← h1]; exact he)
        · exact ih rest2 h1

theorem parseExamples_desc_none (c : List Char) (e : Example)
    (he : e ∈ parseExamples c) : e.description = none := by
  unfold parseExamples scanAll at he
  rw [List.mem_filterMap] at he
  obtain ⟨a, ha, hid⟩ := he
  exact scanF_example_desc_none _ _ a ha e hid

/-- C10: in every successful parse, every `Example` record has
`description = None`: the parser never populates an example's description
field. -/
theorem c10_example_description_none (s : List Char) (ic : Bool)
    (r : JSDocComment) (h : parse s ic = .ok r) :
    ∀ e ∈ r.examples, e.description = none := by
  rcases parse_ok_shape s ic r h with ⟨_, hr⟩ | ⟨_, hr⟩
  · subst hr
    intro e he
    exact parseExamples_desc_none _ e (by simpa [parseNoBlockResult] using he)
  · subst hr
    intro e he
    unfold parseBlocksResult at he
    rcases hM : findMainContent (extractBlocks s).1 with _ | mc
    · rw [hM] at he
      simp at he
    · rw [hM] at he
      simp only at he
      exact parseExamples_desc_none mc e (by simpa using he)

/-- C10 witness: a concrete parse containing an `@example` block whose
extracted example has no description. -/
theorem c10_example_description_none_witness :
    ((parseNoBlockResult "* @example\n* x()".data).examples.headD
        ⟨[], some []⟩).description = none :=
  c10_example_description_none "* @example\n* x()".data true
    (parseNoBlockResult "* @example\n* x()".data) (by decide)
    ((parseNoBlockResult "* @example\n* x()".data).examples.headD ⟨[], some []⟩)
    (by decide)

/- ## C4 and C6: typedef property ownership -/

theorem parseTypedefs_props_single (c : List Char)
    (h1 : (typedefMatches c).length = 1) (td : TypeDef)
    (htd : td ∈ parseTypedefs c) : td.properties = parseProperties c := by
  unfold parseTypedefs at htd
  rw [List.mem_map] at htd
  obtain ⟨m, _, he⟩ := htd
  rw [← he]
  simp [h1]

theorem parseTypedefs_props_multi (c : List Char)
    (h1 : (typedefMatches c).length ≠ 1) (td : TypeDef)
    (htd : td ∈ parseTypedefs c) : td.properties = [] := by
  unfold parseTypedefs at htd
  rw [List.mem_map] at htd
  obtain ⟨m, _, he⟩ := htd
  rw [← he]
  simp [h1]

/-- The input of the C4 counterexample: one block holding a typedef together
with a property. -/
def cin4 : List Char :=
  "/**\n * @typedef \x7bobject\x7d T\n * @property \x7bstring\x7d x - d\n */".data

/-- The interior of the single comment block of `cin4`. -/
def b4 : List Char :=
  "\n * @typedef \x7bobject\x7d T\n * @property \x7bstring\x7d x - d\n ".data

/-- The parse result for `cin4`. -/
def r4 : JSDocComment :=
  parseBlocksResult cin4 (extractBlocks cin4).2 (extractBlocks cin4).1 true

/-- C4 counterexample: for the single-block input `cin4`, the property `x`
owned by the typedef `T` also appears in the root's top-level properties
sequence, so ownership is not tree-shaped in the claimed sense. -/
theorem c4_ownership_counterexample :
    ∃ r td p, parse cin4 true = Except.ok r ∧ td ∈ r.typedefs
      ∧ p ∈ td.properties ∧ p ∈ r.properties :=
  ⟨r4, r4.typedefs.headD ⟨[], [], none, []⟩,
    r4.properties.headD ⟨[], [], [], false⟩,
    by decide, by decide, by decide, by decide⟩

/-- C4 (amended): the root's top-level `properties` holds exactly the
properties extracted from the main block, so ownership is shared rather than
disjoint: for a single-block input whose block holds exactly one typedef,
that typedef's property list equals the root's top-level property list. -/
theorem c4_top_level_properties_shared (s : List Char) (r : JSDocComment)
    (b : List Char) (h : parse s true = .ok r)
    (hb : (extractBlocks s).1 = [b])
    (h1 : (typedefMatches (cleanCommentContent b)).length = 1) :
    r.properties = parseProperties (cleanCommentContent b)
      ∧ ∀ td ∈ r.typedefs, td.properties = r.properties := by
  rcases parse_ok_shape s true r h with ⟨hb2, _⟩ | ⟨_, hr⟩
  · rw [hb] at hb2
    simp at hb2
  · subst hr
    rw [hb]
    have htds : (parseBlocksResult s (extractBlocks s).2 [b] true).typedefs =
        parseTypedefs (cleanCommentContent b) := by
      unfold parseBlocksResult
      cases hM : findMainContent [b] <;> simp [hM]
    have hprops : (parseBlocksResult s (extractBlocks s).2 [b] true).properties =
        parseProperties (cleanCommentContent b) := by
      unfold parseBlocksResult
      cases hM : findMainContent [b] with
      | none => simp [hM]
      | some mc =>
        have hmc : mc = cleanCommentContent b := by
          unfold findMainContent at hM
          by_cases hd : hasDoc (cleanCommentContent b)
          · rw [if_pos hd] at hM
            exact (Option.some.inj hM).symm
          · rw [if_neg hd] at hM
            exact absurd hM (by simp [findMainContent])
        subst hmc
        simp [hM]
    refine ⟨hprops, ?_⟩
    intro td htd
    rw [htds] at htd
    rw [hprops]
    exact parseTypedefs_props_single _ h1 td htd

/-- C4 witness: the amended ownership statement applied to the concrete
input `cin4`. -/
theorem c4_top_level_properties_shared_witness :
    r4.properties = parseProperties (cleanCommentContent b4)
      ∧ ∀ td ∈ r4.typedefs, td.properties = r4.properties :=
  c4_top_level_properties_shared cin4 r4 b4 (by decide) (by decide) (by decide)

/-- C6: within one block's content, exactly one typedef match means every
typedef of that block owns all of the block's properties; two or more
typedef matches mean every typedef of the block gets an empty property
list; and the parse result collects each block's typedefs separately (so a
typedef in its own block owns exactly its own block's properties). -/
theorem c6_typedef_property_association :
    (∀ c, (typedefMatches c).length = 1 →
        ∀ td ∈ parseTypedefs c, td.properties = parseProperties c)
      ∧ (∀ c, 2 ≤ (typedefMatches c).length →
          ∀ td ∈ parseTypedefs c, td.properties = [])
      ∧ (∀ s ic r, parse s ic = .ok r → (extractBlocks s).1 ≠ [] →
          r.typedefs =
            (((extractBlocks s).1.map cleanCommentContent).map parseTypedefs).flatten
            ∧ ∀ td ∈ r.typedefs, ∃ b ∈ (extractBlocks s).1,
                td ∈ parseTypedefs (cleanCommentContent b)) := by
  refine ⟨fun c h1 td htd => parseTypedefs_props_single c h1 td htd,
    fun c h2 td htd => parseTypedefs_props_multi c (by omega) td htd, ?_⟩
  intro s ic r h hb
  rcases parse_ok_shape s ic r h with ⟨hb2, _⟩ | ⟨_, hr⟩
  · exact absurd hb2 hb
  · subst hr
    have htds : (parseBlocksResult s (extractBlocks s).2 (extractBlocks s).1 ic).typedefs =
        (((extractBlocks s).1.map cleanCommentContent).map parseTypedefs).flatten := by
      unfold parseBlocksResult
      cases hM : findMainContent (extractBlocks s).1 <;> simp [hM]
    refine ⟨htds, ?_⟩
    intro td htd
    rw [htds] at htd
    rw [List.mem_flatten] at htd
    obtain ⟨l, hl, hmem⟩ := htd
    rw [List.mem_map] at hl
    obtain ⟨cc, hcc, hcl⟩ := hl
    rw [List.mem_map] at hcc
    obtain ⟨b, hbm, hbc⟩ := hcc
    exact ⟨b, hbm, by rw [hbc, hcl]; exact hmem⟩

/-- A block content holding two typedefs and a property, for the C6
witness. -/
def ctwo : List Char :=
  "@typedef \x7bo\x7d A\n@typedef \x7bo\x7d B\n@property \x7bs\x7d x - d".data

/-- C6 witness: in a block with two typedefs, both typedefs get empty
property lists even though the block holds a property. -/
theorem c6_typedef_property_association_witness :
    (∀ td ∈ parseTypedefs ctwo, td.properties = [])
      ∧ parseProperties ctwo ≠ [] :=
  ⟨c6_typedef_property_association.2.1 ctwo (by decide), by decide⟩

/- ## C5: main-block selection -/

/-- C5: when the input contains comment blocks, the main block supplying
description, params, returns, throws and examples is the first block (in
source order) whose extracted params, returns, examples or throws is
non-empty (`hasDoc`); when no block qualifies, the first block supplies
only description and properties and the tag sequences are empty; and
typedefs are collected from every block in order. -/
theorem c5_main_block_selection (s : List Char) (ic : Bool) (r : JSDocComment)
    (h : parse s ic = .ok r) (hb : (extractBlocks s).1 ≠ []) :
    (∀ mc, ((extractBlocks s).1.map cleanCommentContent).find? hasDoc = some mc →
        r.description = extractDescriptionParts mc
          ∧ r.params = parseParameters mc
          ∧ r.returns = parseReturns mc
          ∧ r.examples = parseExamples mc
          ∧ r.throws = parseThrows mc)
      ∧ (((extractBlocks s).1.map cleanCommentContent).find? hasDoc = none →
          r.params = [] ∧ r.returns = [] ∧ r.examples = [] ∧ r.throws = []
            ∧ r.description =
                extractDescriptionParts
                  (cleanCommentContent ((extractBlocks s).1.headD []))
            ∧ r.properties =
                parseProperties (cleanCommentContent ((extractBlocks s).1.headD [])))
      ∧ r.typedefs =
          (((extractBlocks s).1.map cleanCommentContent).map parseTypedefs).flatten := by
  rcases parse_ok_shape s ic r h with ⟨hb2, _⟩ | ⟨_, hr⟩
  · exact absurd hb2 hb
  · subst hr
    rw [← findMainContent_eq_find?]
    unfold parseBlocksResult
    cases hM : findMainContent (extractBlocks s).1 with
    | some mc0 =>
      refine ⟨?_, ?_, by simp [hM]⟩
      · intro mc hmc
        have : mc0 = mc := Option.some.inj hmc
        subst this
        simp [hM]
      · intro hmc
        exact absurd hmc (by simp)
    | none =>
      refine ⟨?_, ?_, by simp [hM]⟩
      · intro mc hmc
        exact absurd hmc (by simp)
      · intro _
        simp [hM]

/-- The input of the C5 witness: a typedef-only block followed by a block
with function documentation. -/
def cin5 : List Char :=
  ("/**\n * @typedef \x7bobject\x7d Config\n * @property \x7bstring\x7d apiUrl - API\n */\n"
    ++ "/**\n * Does things.\n * @param \x7bConfig\x7d config - c\n */\nconst doIt = () => 1;").data

/-- The parse result for `cin5`. -/
def r5 : JSDocComment :=
  parseBlocksResult cin5 (extractBlocks cin5).2 (extractBlocks cin5).1 true

set_option maxRecDepth 100000 in
/-- C5 witness: for the two-block input `cin5`, the second block is the
main one (the first with function documentation), and its params supply the
result. -/
theorem c5_main_block_selection_witness :
    r5.params =
      parseParameters (cleanCommentContent
        "\n * Does things.\n * @param \x7bConfig\x7d config - c\n ".data) :=
  ((c5_main_block_selection cin5 true r5 (by decide) (by decide)).1
    (cleanCommentContent "\n * Does things.\n * @param \x7bConfig\x7d config - c\n ".data)
    (by decide)).2.1

/- ## Symbolic evaluation of the scanners -/

theorem leadsWith_append (p rest : List Char) : leadsWith p (p ++ rest) = true := by
  induction p with
  | nil => rfl
  | cons c pt ih => simpa [leadsWith] using ih

theorem findSub_self (pat body : List Char) (h : pat ≠ []) :
    findSub pat (pat ++ body) = some ([], body) := by
  cases pat with
  | nil => exact absurd rfl h
  | cons c pt =>
    have he : (c :: pt) ++ body = c :: (pt ++ body) := rfl
    rw [he]
    unfold findSub
    rw [if_pos (by rw [← he]; exact leadsWith_append (c :: pt) body)]
    rw [← he, List.drop_left]

theorem findSub_nil (pat : List Char) (h : pat ≠ []) : findSub pat [] = none := by
  cases pat with
  | nil => exact absurd rfl h
  | cons c pt => simp [findSub, leadsWith]

theorem scanF_nil {α : Type} (lit : List Char) (h : lit ≠ [])
    (tryM : List Char → Option (α × List Char)) (fuel : Nat) :
    scanF lit tryM fuel [] = [] := by
  cases fuel with
  | zero => rfl
  | succ n => rw [scanF, findSub_nil lit h]

theorem scanAll_single {α : Type} (lit : List Char) (hlit : lit ≠ [])
    (tryM : List Char → Option (α × List Char)) (body : List Char) (m : α)
    (hm : tryM body = some (m, [])) : scanAll lit tryM (lit ++ body) = [m] := by
  unfold scanAll
  cases hL : (lit ++ body).length with
  | zero =>
    rw [List.length_eq_zero, List.append_eq_nil] at hL
    exact absurd hL.1 hlit
  | succ n =>
    rw [scanF, findSub_self lit body hlit]
    dsimp only
    rw [hm]
    dsimp only
    rw [scanF_nil lit hlit]

theorem takeWhile_append_stop (p : Char → Bool) (xs : List Char) (y : Char)
    (ys : List Char) (hxs : ∀ x ∈ xs, p x = true) (hy : p y = false) :
    (xs ++ y :: ys).takeWhile p = xs := by
  induction xs with
  | nil => simp [List.takeWhile_cons, hy]
  | cons a r ih =>
    rw [List.cons_append, List.takeWhile_cons, hxs a (by simp), if_pos rfl,
      ih (fun x hx => hxs x (by simp [hx]))]

theorem dropWhile_append_stop (p : Char → Bool) (xs : List Char) (y : Char)
    (ys : List Char) (hxs : ∀ x ∈ xs, p x = true) (hy : p y = false) :
    (xs ++ y :: ys).dropWhile p = y :: ys := by
  induction xs with
  | nil => simp [List.dropWhile_cons, hy]
  | cons a r ih =>
    rw [List.cons_append, List.dropWhile_cons, hxs a (by simp), if_pos rfl]
    exact ih (fun x hx => hxs x (by simp [hx]))

theorem dropWhile_eq_self_of_head (p : Char → Bool) (l : List Char)
    (h : ∀ hd, l.head? = some hd → p hd = false) : l.dropWhile p = l := by
  cases l with
  | nil => rfl
  | cons a r => rw [List.dropWhile_cons, h a rfl, if_neg (by simp)]

/-- Well-formed argument pieces for the symbolic `@param` lemmas. -/
def goodType (ty : List Char) : Prop := ty ≠ [] ∧ ∀ c ∈ ty, c ≠ '}'

/-- A name token: non-empty, made only of name characters, without `=`. -/
def goodName (nm : List Char) : Prop :=
  nm ≠ [] ∧ ∀ c ∈ nm, nameChar c = true ∧ c ≠ '='

/-- A default value made only of name characters. -/
def goodDefault (df : List Char) : Prop := ∀ c ∈ df, nameChar c = true

/-- A single-line description not starting with whitespace or a dash. -/
def goodDesc (ds : List Char) : Prop :=
  ('\n' ∉ ds) ∧ ∀ hd, ds.head? = some hd → pySpace hd = false ∧ hd ≠ '-'

instance (ty : List Char) : Decidable (goodType ty) := by
  unfold goodType
  infer_instance

instance (nm : List Char) : Decidable (goodName nm) := by
  unfold goodName
  infer_instance

instance (df : List Char) : Decidable (goodDefault df) := by
  unfold goodDefault
  infer_instance

instance (ds : List Char) : Decidable (goodDesc ds) := by
  unfold goodDesc
  have : Decidable (∀ hd, ds.head? = some hd → pySpace hd = false ∧ hd ≠ '-') := by
    cases h : ds.head? with
    | none => exact isTrue (fun hd hh => Option.noConfusion hh)
    | some a =>
      by_cases hp : pySpace a = false ∧ a ≠ '-'
      · exact isTrue (fun hd hh => by
          rw [← Option.some.inj hh]
          exact hp)
      · exact isFalse (fun hall => hp (hall a rfl))
  infer_instance

theorem matchTypePart_eval (ty rest : List Char) (h1 : ty ≠ [])
    (h2 : ∀ c ∈ ty, c ≠ '}') :
    matchTypePart (' ' :: '{' :: (ty ++ '}' :: rest)) = some (ty, rest) := by
  unfold matchTypePart
  have htw : (' ' :: '{' :: (ty ++ '}' :: rest)).takeWhile pySpace = [' '] := by
    rw [List.takeWhile_cons_of_pos (by decide), List.takeWhile_cons_of_neg (by decide)]
  have hdw : (' ' :: '{' :: (ty ++ '}' :: rest)).dropWhile pySpace =
      '{' :: (ty ++ '}' :: rest) := by
    rw [List.dropWhile_cons_of_pos (by decide), List.dropWhile_cons_of_neg (by decide)]
  rw [htw, hdw]
  rw [if_neg (by simp)]
  have hca : charAfter '{' ('{' :: (ty ++ '}' :: rest)) = some (ty ++ '}' :: rest) := by
    simp [charAfter]
  rw [hca]
  dsimp only
  have hty : (ty ++ '}' :: rest).takeWhile (fun c => c ≠ '}') = ty :=
    takeWhile_append_stop _ ty '}' rest
      (fun x hx => by simpa using h2 x hx) (by simp)
  have hdy : (ty ++ '}' :: rest).dropWhile (fun c => c ≠ '}') = '}' :: rest :=
    dropWhile_append_stop _ ty '}' rest
      (fun x hx => by simpa using h2 x hx) (by simp)
  rw [hty, hdy, if_neg h1]
  simp [charAfter]

theorem descTail_eval (ds : List Char) (h : goodDesc ds) :
    descTail (' ' :: ds) = (ds, []) := by
  obtain ⟨hnl, hhd⟩ := h
  unfold descTail
  have h0 : (' ' :: ds).dropWhile pySpace = ds := by
    rw [List.dropWhile_cons_of_pos (by decide)]
    exact dropWhile_eq_self_of_head pySpace ds (fun hd hh => (hhd hd hh).1)
  rw [h0]
  dsimp only
  have h1 : charAfter '-' ds = none := by
    cases ds with
    | nil => rfl
    | cons a r =>
      have := (hhd a rfl).2
      simp [charAfter, this]
  rw [h1]
  dsimp only
  rw [dropWhile_eq_self_of_head pySpace ds (fun hd hh => (hhd hd hh).1)]
  have h2 : ds.takeWhile (fun c => c ≠ '\n') = ds :=
    takeWhile_eq_self_of_all _ ds (fun a ha => by
      simp only [decide_eq_true_eq]
      intro he
      rw [he] at ha
      exact hnl ha)
  have h3 : ds.dropWhile (fun c => c ≠ '\n') = [] := by
    rw [List.dropWhile_eq_nil_iff]
    intro a ha
    simp only [decide_eq_true_eq]
    intro he
    rw [he] at ha
    exact hnl ha
  rw [h2, h3]

theorem matchNameToken_bracketed (nm rest : List Char) (h1 : nm ≠ [])
    (h2 : ∀ c ∈ nm, nameChar c = true) :
    matchNameToken ('[' :: (nm ++ ']' :: rest)) =
      some (('[' :: nm) ++ [']'], nm, rest) := by
  unfold matchNameToken
  have hca : charAfter '[' ('[' :: (nm ++ ']' :: rest)) = some (nm ++ ']' :: rest) := by
    simp [charAfter]
  rw [hca]
  dsimp only
  have htw : (nm ++ ']' :: rest).takeWhile nameChar = nm :=
    takeWhile_append_stop _ nm ']' rest h2 (by decide)
  rw [htw, if_neg h1]
  have hdr : (nm ++ ']' :: rest).drop nm.length = ']' :: rest := List.drop_left nm _
  rw [hdr]
  simp [charAfter]

theorem matchNameToken_bare (nm rest : List Char) (h1 : nm ≠ [])
    (h2 : ∀ c ∈ nm, nameChar c = true)
    (h3 : ∀ hd, rest.head? = some hd → nameChar hd = false ∧ hd ≠ ']') :
    matchNameToken (nm ++ rest) = some (nm, nm, rest) := by
  unfold matchNameToken
  have hca : charAfter '[' (nm ++ rest) = none := by
    cases nm with
    | nil => exact absurd rfl h1
    | cons a r =>
      have ha : nameChar a = true := h2 a (by simp)
      have : a ≠ '[' := by
        intro he
        rw [he] at ha
        exact Bool.noConfusion ha
      simp [charAfter, this]
  rw [hca]
  dsimp only
  have htw : (nm ++ rest).takeWhile nameChar = nm := by
    cases rest with
    | nil =>
      rw [List.append_nil]
      exact takeWhile_eq_self_of_all _ nm h2
    | cons y ys =>
      exact takeWhile_append_stop _ nm y ys h2 (h3 y rfl).1
  rw [htw, if_neg h1, List.drop_left]
  have hc2 : charAfter ']' rest = none := by
    cases rest with
    | nil => rfl
    | cons y ys =>
      have := (h3 y rfl).2
      simp [charAfter, this]
  rw [hc2]

theorem nameChar_props (c : Char) (h : nameChar c = true) :
    pySpace c = false ∧ c ≠ '[' ∧ c ≠ ']' ∧ c ≠ '-' := by
  unfold nameChar at h
  rw [Bool.not_eq_true'] at h
  simp only [Bool.or_eq_false_iff, decide_eq_false_iff_not] at h
  exact ⟨h.2, h.1.1.1, h.1.1.2, h.1.2⟩

theorem matchParamTail_bracketed (ty nm ds : List Char) (hty : goodType ty)
    (hnm : nm ≠ []) (hnc : ∀ c ∈ nm, nameChar c = true) (hds : goodDesc ds) :
    matchParamTail
        (' ' :: '{' :: (ty ++ '}' :: ' ' :: '[' :: (nm ++ ']' :: ' ' :: ds))) =
      some (⟨ty, ('[' :: nm) ++ [']'], nm, ds⟩, []) := by
  unfold matchParamTail
  rw [matchTypePart_eval ty _ hty.1 hty.2]
  dsimp only
  have htw : (' ' :: '[' :: (nm ++ ']' :: ' ' :: ds)).takeWhile pySpace = [' '] := by
    rw [List.takeWhile_cons_of_pos (by decide), List.takeWhile_cons_of_neg (by decide)]
  have hdw : (' ' :: '[' :: (nm ++ ']' :: ' ' :: ds)).dropWhile pySpace =
      '[' :: (nm ++ ']' :: ' ' :: ds) := by
    rw [List.dropWhile_cons_of_pos (by decide), List.dropWhile_cons_of_neg (by decide)]
  rw [htw, if_neg (by simp), hdw]
  rw [matchNameToken_bracketed nm (' ' :: ds) hnm hnc]
  dsimp only
  rw [descTail_eval ds hds]

theorem matchParamTail_bare (ty nm ds : List Char) (hty : goodType ty)
    (hnm : nm ≠ []) (hnc : ∀ c ∈ nm, nameChar c = true) (hds : goodDesc ds) :
    matchParamTail (' ' :: '{' :: (ty ++ '}' :: ' ' :: (nm ++ ' ' :: ds))) =
      some (⟨ty, nm, nm, ds⟩, []) := by
  unfold matchParamTail
  rw [matchTypePart_eval ty _ hty.1 hty.2]
  dsimp only
  cases nm with
  | nil => exact absurd rfl hnm
  | cons n0 nmt =>
    have hn0 : pySpace n0 = false := (nameChar_props n0 (hnc n0 (by simp))).1
    have htw : (' ' :: ((n0 :: nmt) ++ ' ' :: ds)).takeWhile pySpace = [' '] := by
      rw [List.takeWhile_cons_of_pos (by decide), List.cons_append,
        List.takeWhile_cons_of_neg (by simp [hn0])]
    have hdw : (' ' :: ((n0 :: nmt) ++ ' ' :: ds)).dropWhile pySpace =
        (n0 :: nmt) ++ ' ' :: ds := by
      rw [List.dropWhile_cons_of_pos (by decide)]
      rw [List.cons_append, List.dropWhile_cons_of_neg (by simp [hn0])]
    rw [htw, if_neg (by simp), hdw]
    rw [matchNameToken_bare (n0 :: nmt) (' ' :: ds) (by simp) hnc
      (fun hd hh => by
        rw [List.head?_cons] at hh
        rw [← Option.some.inj hh]
        exact ⟨by decide, by decide⟩)]
    dsimp only
    rw [descTail_eval ds hds]

theorem matchParamTail_default (ty nm df ds : List Char) (hty : goodType ty)
    (hnm : nm ≠ []) (hnc : ∀ c ∈ nm, nameChar c = true)
    (hdf : ∀ c ∈ df, nameChar c = true) (hds : goodDesc ds) :
    matchParamTail
        (' ' :: '{' :: (ty ++ '}' :: ' ' :: '[' ::
          ((nm ++ '=' :: df) ++ ']' :: ' ' :: ds))) =
      some (⟨ty, ('[' :: (nm ++ '=' :: df)) ++ [']'], nm ++ '=' :: df, ds⟩, []) := by
  unfold matchParamTail
  rw [matchTypePart_eval ty _ hty.1 hty.2]
  dsimp only
  have htw : (' ' :: '[' :: ((nm ++ '=' :: df) ++ ']' :: ' ' :: ds)).takeWhile pySpace
      = [' '] := by
    rw [List.takeWhile_cons_of_pos (by decide), List.takeWhile_cons_of_neg (by decide)]
  have hdw : (' ' :: '[' :: ((nm ++ '=' :: df) ++ ']' :: ' ' :: ds)).dropWhile pySpace
      = '[' :: ((nm ++ '=' :: df) ++ ']' :: ' ' :: ds) := by
    rw [List.dropWhile_cons_of_pos (by decide), List.dropWhile_cons_of_neg (by decide)]
  rw [htw, if_neg (by simp), hdw]
  have hall : ∀ c ∈ nm ++ '=' :: df, nameChar c = true := by
    intro c hc
    rcases List.mem_append.mp hc with h1 | h1
    · exact hnc c h1
    · rcases List.mem_cons.mp h1 with h2 | h2
      · rw [h2]
        decide
      · exact hdf c h2
  rw [matchNameToken_bracketed (nm ++ '=' :: df) (' ' :: ds) (by simp [hnm]) hall]
  dsimp only
  rw [descTail_eval ds hds]

/- ## C7: optionality from brackets -/

theorem parseParameters_single (body : List Char) (m : ParamMatch)
    (hm : matchParamTail body = some (m, [])) :
    parseParameters ("@param".data ++ body) = [paramOfMatch m] := by
  unfold parseParameters paramMatches
  rw [scanAll_single "@param".data (by decide) matchParamTail body m hm]
  rfl

theorem parseProperties_single (body : List Char) (m : ParamMatch)
    (hm : matchParamTail body = some (m, [])) :
    parseProperties ("@property".data ++ body) = [propOfMatch m] := by
  unfold parseProperties propertyMatches
  rw [scanAll_single "@property".data (by decide) matchParamTail body m hm]
  rfl

theorem token_bracket_true (xs : List Char) :
    (((('[' :: xs) ++ [']']).head? == some '[') &&
      ((('[' :: xs) ++ [']']).getLast? == some ']')) = true := by
  have h2 : (('[' :: xs) ++ [']']).getLast? = some ']' := List.getLast?_concat _
  rw [show (('[' :: xs) ++ [']']).head? = some '[' from rfl, h2]
  rfl

theorem token_bare_false (nm : List Char) (h1 : nm ≠ [])
    (h2 : ∀ c ∈ nm, nameChar c = true) :
    ((nm.head? == some '[') && (nm.getLast? == some ']')) = false := by
  cases nm with
  | nil => exact absurd rfl h1
  | cons a r =>
    have ha : a ≠ '[' := (nameChar_props a (h2 a (by simp))).2.1
    have hh : (((a :: r).head? == some '[') : Bool) = false := by
      rw [List.head?_cons]
      exact beq_eq_false_iff_ne.mpr (by simp [ha])
    rw [hh, Bool.false_and]

theorem paramOfMatch_bracketed (ty nm ds : List Char) (hnm : goodName nm) :
    paramOfMatch ⟨ty, ('[' :: nm) ++ [']'], nm, ds⟩ =
      ⟨parseTypes ty, nm, pyStrip ds, true⟩ := by
  have hname : nm.takeWhile (fun c => c ≠ '=') = nm :=
    takeWhile_eq_self_of_all _ nm (fun a ha => by simpa using (hnm.2 a ha).2)
  unfold paramOfMatch
  rw [hname, token_bracket_true]

theorem paramOfMatch_bare (ty nm ds : List Char) (hnm : goodName nm) :
    paramOfMatch ⟨ty, nm, nm, ds⟩ = ⟨parseTypes ty, nm, pyStrip ds, false⟩ := by
  have hname : nm.takeWhile (fun c => c ≠ '=') = nm :=
    takeWhile_eq_self_of_all _ nm (fun a ha => by simpa using (hnm.2 a ha).2)
  unfold paramOfMatch
  rw [hname, token_bare_false nm hnm.1 (fun c hc => (hnm.2 c hc).1)]

theorem paramOfMatch_default (ty nm df ds : List Char) (hnm : goodName nm) :
    paramOfMatch ⟨ty, ('[' :: (nm ++ '=' :: df)) ++ [']'], nm ++ '=' :: df, ds⟩ =
      ⟨parseTypes ty, nm, pyStrip ds, true⟩ := by
  have hname : (nm ++ '=' :: df).takeWhile (fun c => c ≠ '=') = nm :=
    takeWhile_append_stop _ nm '=' df
      (fun a ha => by simpa using (hnm.2 a ha).2) (by simp)
  unfold paramOfMatch
  rw [hname, token_bracket_true]

theorem propOfMatch_bracketed (ty nm ds : List Char) (hnm : goodName nm) :
    propOfMatch ⟨ty, ('[' :: nm) ++ [']'], nm, ds⟩ =
      ⟨parseTypes ty, nm, pyStrip ds, true⟩ := by
  have hname : nm.takeWhile (fun c => c ≠ '=') = nm :=
    takeWhile_eq_self_of_all _ nm (fun a ha => by simpa using (hnm.2 a ha).2)
  unfold propOfMatch
  rw [hname, token_bracket_true]

theorem propOfMatch_bare (ty nm ds : List Char) (hnm : goodName nm) :
    propOfMatch ⟨ty, nm, nm, ds⟩ = ⟨parseTypes ty, nm, pyStrip ds, false⟩ := by
  have hname : nm.takeWhile (fun c => c ≠ '=') = nm :=
    takeWhile_eq_self_of_all _ nm (fun a ha => by simpa using (hnm.2 a ha).2)
  unfold propOfMatch
  rw [hname, token_bare_false nm hnm.1 (fun c hc => (hnm.2 c hc).1)]

/-- C7: for every `@param`/`@property` occurrence that matches, the record's
`optional` flag is true iff the captured name token was bracket-wrapped (it
is computed from the token before the `=`-truncation of the name, so the
truncation never changes it); in particular `[x]` gives `optional = true`,
a bare `x` gives `optional = false`, and `[x=1]` gives `optional = true`
with name `x`. -/
theorem c7_param_optionality :
    (∀ c m, m ∈ paramMatches c →
        (paramOfMatch m).optional =
          ((m.token.head? == some '[') && (m.token.getLast? == some ']')))
      ∧ (∀ ty nm ds, goodType ty → goodName nm → goodDesc ds →
          parseParameters ("@param".data ++
              (' ' :: '{' :: (ty ++ '}' :: ' ' :: '[' :: (nm ++ ']' :: ' ' :: ds))))
            = [⟨parseTypes ty, nm, pyStrip ds, true⟩]
          ∧ parseParameters ("@param".data ++
              (' ' :: '{' :: (ty ++ '}' :: ' ' :: (nm ++ ' ' :: ds))))
            = [⟨parseTypes ty, nm, pyStrip ds, false⟩]
          ∧ parseProperties ("@property".data ++
              (' ' :: '{' :: (ty ++ '}' :: ' ' :: '[' :: (nm ++ ']' :: ' ' :: ds))))
            = [⟨parseTypes ty, nm, pyStrip ds, true⟩]
          ∧ parseProperties ("@property".data ++
              (' ' :: '{' :: (ty ++ '}' :: ' ' :: (nm ++ ' ' :: ds))))
            = [⟨parseTypes ty, nm, pyStrip ds, false⟩])
      ∧ (∀ ty nm df ds, goodType ty → goodName nm → goodDefault df → goodDesc ds →
          parseParameters ("@param".data ++
              (' ' :: '{' :: (ty ++ '}' :: ' ' :: '[' ::
                ((nm ++ '=' :: df) ++ ']' :: ' ' :: ds))))
            = [⟨parseTypes ty, nm, pyStrip ds, true⟩]) := by
  refine ⟨fun c m _ => rfl, ?_, ?_⟩
  · intro ty nm ds hty hnm hds
    have hnc : ∀ c ∈ nm, nameChar c = true := fun c hc => (hnm.2 c hc).1
    refine ⟨?_, ?_, ?_, ?_⟩
    · rw [parseParameters_single _ _
        (matchParamTail_bracketed ty nm ds hty hnm.1 hnc hds)]
      rw [paramOfMatch_bracketed ty nm ds hnm]
    · rw [parseParameters_single _ _
        (matchParamTail_bare ty nm ds hty hnm.1 hnc hds)]
      rw [paramOfMatch_bare ty nm ds hnm]
    · rw [parseProperties_single _ _
        (matchParamTail_bracketed ty nm ds hty hnm.1 hnc hds)]
      rw [propOfMatch_bracketed ty nm ds hnm]
    · rw [parseProperties_single _ _
        (matchParamTail_bare ty nm ds hty hnm.1 hnc hds)]
      rw [propOfMatch_bare ty nm ds hnm]
  · intro ty nm df ds hty hnm hdf hds
    have hnc : ∀ c ∈ nm, nameChar c = true := fun c hc => (hnm.2 c hc).1
    rw [parseParameters_single _ _
      (matchParamTail_default ty nm df ds hty hnm.1 hnc hdf hds)]
    rw [paramOfMatch_default ty nm df ds hnm]

/-- C7 witness: the three concrete shapes `[x]`, `x` and `[x=1]` with type
`t` and description `d`. -/
theorem c7_param_optionality_witness :
    parseParameters ("@param".data ++
        (' ' :: '{' :: ("t".data ++ '}' :: ' ' :: '[' :: ("x".data ++ ']' :: ' ' :: "d".data))))
      = [⟨parseTypes "t".data, "x".data, pyStrip "d".data, true⟩]
      ∧ parseParameters ("@param".data ++
          (' ' :: '{' :: ("t".data ++ '}' :: ' ' :: ("x".data ++ ' ' :: "d".data))))
        = [⟨parseTypes "t".data, "x".data, pyStrip "d".data, false⟩]
      ∧ parseParameters ("@param".data ++
          (' ' :: '{' :: ("t".data ++ '}' :: ' ' :: '[' ::
            (("x".data ++ '=' :: "1".data) ++ ']' :: ' ' :: "d".data))))
        = [⟨parseTypes "t".data, "x".data, pyStrip "d".data, true⟩] :=
  ⟨(c7_param_optionality.2.1 "t".data "x".data "d".data
      (by decide) (by decide) (by decide)).1,
   (c7_param_optionality.2.1 "t".data "x".data "d".data
      (by decide) (by decide) (by decide)).2.1,
   c7_param_optionality.2.2 "t".data "x".data "1".data "d".data
      (by decide) (by decide) (by decide) (by decide)⟩

/- ## C9: malformed tag occurrences -/

theorem charAfter_head (c : Char) (l r : List Char) (h : charAfter c l = some r) :
    l.head? = some c := by
  unfold charAfter at h
  cases l with
  | nil => exact Option.noConfusion h
  | cons a t =>
    dsimp only at h
    by_cases ha : a = c
    · rw [List.head?_cons, ha]
    · rw [if_neg ha] at h
      exact Option.noConfusion h

/-- C9 counterexample: a `@param` occurrence missing its name token is not
skipped; the scanner captures the following `@returns` keyword as the
parameter name, contributing a (corrupt) record where the claim says no
record may be contributed. -/
theorem c9_malformed_param_counterexample :
    parseParameters "@param \x7bstring\x7d\n@returns \x7bnumber\x7d ok".data
      = [⟨["string".data], "@returns".data, "\x7bnumber\x7d ok".data, false⟩] := by
  decide

/-- C9 (amended): a tag occurrence that does not match its required shape is
not counted — in particular a `@param` without a brace-delimited type is
skipped and corrupts nothing else — and extractors never cause `parse` to
fail; however, a `@param` missing its name token may instead capture the
following non-whitespace text (such as the next tag) as its name. -/
theorem c9_malformed_tags_amended :
    (∀ l x, matchParamTail l = some x →
        (l.dropWhile pySpace).head? = some '{' ∧ l.takeWhile pySpace ≠ [])
      ∧ parseParameters
          "@param notype - bad\n@param \x7bt\x7d x - ok\n@returns \x7bn\x7d r".data
        = [⟨["t".data], "x".data, "ok".data, false⟩]
      ∧ parseReturns
          "@param notype - bad\n@param \x7bt\x7d x - ok\n@returns \x7bn\x7d r".data
        = [⟨["n".data], "r".data⟩]
      ∧ (∀ s ic, pyStrip s ≠ [] →
          ((extractBlocks s).1 ≠ [] ∨ (pyStrip s).head? = some '*') →
          ∃ r, parse s ic = .ok r) := by
  refine ⟨?_, by decide, by decide, ?_⟩
  · intro l x hx
    unfold matchParamTail at hx
    cases hTP : matchTypePart l with
    | none =>
      rw [hTP] at hx
      exact Option.noConfusion hx
    | some p =>
      unfold matchTypePart at hTP
      by_cases h1 : l.takeWhile pySpace = []
      · rw [if_pos h1] at hTP
        exact Option.noConfusion hTP
      · rw [if_neg h1] at hTP
        refine ⟨?_, h1⟩
        cases hca : charAfter '{' (l.dropWhile pySpace) with
        | none =>
          rw [hca] at hTP
          exact Option.noConfusion hTP
        | some r2 => exact charAfter_head '{' _ r2 hca
  · intro s ic hs hd
    unfold parse
    rw [if_neg hs]
    by_cases hb : (extractBlocks s).1 = []
    · rcases hd with hd | hd
      · exact absurd hb hd
      · rw [if_pos hb, if_pos hd]
        exact ⟨_, rfl⟩
    · rw [if_neg hb]
      exact ⟨_, rfl⟩

/-- C9 witness: a well-shaped `@param` tail starts, after its mandatory
whitespace, with the opening brace of its type. -/
theorem c9_malformed_tags_amended_witness :
    ((" \x7bt\x7d x".data.dropWhile pySpace).head? = some '\x7b'
      ∧ " \x7bt\x7d x".data.takeWhile pySpace ≠ []) :=
  c9_malformed_tags_amended.1 " \x7bt\x7d x".data
    (⟨"t".data, "x".data, "x".data, []⟩, []) (by decide)

/- ## C1: the trailing-code function-name heuristic (spec-modelled) -/

/-- A JavaScript identifier: non-empty, all identifier characters. -/
def goodIdent (nm : List Char) : Prop := nm ≠ [] ∧ ∀ c ∈ nm, identChar c = true

instance (nm : List Char) : Decidable (goodIdent nm) := by
  unfold goodIdent
  infer_instance

theorem identChar_not_pySpace (c : Char) (h : identChar c = true) :
    pySpace c = false := by
  by_contra hs
  rw [Bool.not_eq_false] at hs
  unfold pySpace at hs
  simp only [Bool.or_eq_true, decide_eq_true_eq] at hs
  rcases hs with ((((h1 | h1) | h1) | h1) | h1) | h1 <;>
    (rw [h1] at h; exact absurd h (by decide))

theorem leadsWith_cons_false (c : Char) (p : List Char) (d : Char) (l : List Char)
    (h : c ≠ d) : leadsWith (c :: p) (d :: l) = false := by
  unfold leadsWith
  simp [h]

theorem kwTake_none (w l : List Char) (h : leadsWith w l = false) :
    kwTake w l = none := by
  unfold kwTake
  rw [h]
  rfl

theorem afterKwOpt_of_none (w l : List Char) (h : kwTake w l = none) :
    afterKwOpt w l = l := by
  unfold afterKwOpt
  rw [h]

theorem kwTake_self (w rest : List Char) :
    kwTake w (w ++ ' ' :: rest) = some (rest.dropWhile pySpace) := by
  unfold kwTake
  rw [if_pos (leadsWith_append w (' ' :: rest)), List.drop_left]
  dsimp only
  rw [if_pos (by decide)]

theorem matchShape1_funcDecl (nm rest : List Char) (hn : goodIdent nm) :
    matchShape1 ("function".data ++ ' ' :: (nm ++ '(' :: rest)) = some nm := by
  obtain ⟨hne, hni⟩ := hn
  unfold matchShape1
  dsimp only
  have hfl : "function".data ++ ' ' :: (nm ++ '(' :: rest)
      = 'f' :: ("unction".data ++ ' ' :: (nm ++ '(' :: rest)) := rfl
  have hdw : ("function".data ++ ' ' :: (nm ++ '(' :: rest)).dropWhile pySpace
      = "function".data ++ ' ' :: (nm ++ '(' :: rest) := by
    rw [hfl, List.dropWhile_cons_of_neg (by decide), ← hfl]
  rw [hdw]
  have hex : kwTake "export".data ("function".data ++ ' ' :: (nm ++ '(' :: rest))
      = none := by
    apply kwTake_none
    rw [hfl]
    exact leadsWith_cons_false 'e' "xport".data 'f' _ (by decide)
  rw [afterKwOpt_of_none _ _ hex]
  have has : kwTake "async".data ("function".data ++ ' ' :: (nm ++ '(' :: rest))
      = none := by
    apply kwTake_none
    rw [hfl]
    exact leadsWith_cons_false 'a' "sync".data 'f' _ (by decide)
  rw [afterKwOpt_of_none _ _ has]
  rw [kwTake_self "function".data (nm ++ '(' :: rest)]
  dsimp only
  obtain ⟨n0, nmt, rfl⟩ : ∃ a t, nm = a :: t := by
    cases nm with
    | nil => exact absurd rfl hne
    | cons a t => exact ⟨a, t, rfl⟩
  have hn0 : pySpace n0 = false := identChar_not_pySpace n0 (hni n0 (by simp))
  have hdw2 : ((n0 :: nmt) ++ '(' :: rest).dropWhile pySpace
      = (n0 :: nmt) ++ '(' :: rest := by
    rw [List.cons_append, List.dropWhile_cons_of_neg (by simp [hn0])]
  rw [hdw2]
  have htw : ((n0 :: nmt) ++ '(' :: rest).takeWhile identChar = n0 :: nmt :=
    takeWhile_append_stop _ _ '(' rest hni (by decide)
  rw [htw, if_neg (by simp), List.drop_left,
    List.dropWhile_cons_of_neg (by decide), List.head?_cons, if_pos rfl]

theorem matchShape1_const_none (y : List Char) :
    matchShape1 ("const".data ++ ' ' :: y) = none := by
  unfold matchShape1
  dsimp only
  have hcl : "const".data ++ ' ' :: y = 'c' :: ("onst".data ++ ' ' :: y) := rfl
  have hdw : ("const".data ++ ' ' :: y).dropWhile pySpace
      = "const".data ++ ' ' :: y := by
    rw [hcl, List.dropWhile_cons_of_neg (by decide), ← hcl]
  rw [hdw]
  have hex : kwTake "export".data ("const".data ++ ' ' :: y) = none := by
    apply kwTake_none
    rw [hcl]
    exact leadsWith_cons_false 'e' "xport".data 'c' _ (by decide)
  rw [afterKwOpt_of_none _ _ hex]
  have has : kwTake "async".data ("const".data ++ ' ' :: y) = none := by
    apply kwTake_none
    rw [hcl]
    exact leadsWith_cons_false 'a' "sync".data 'c' _ (by decide)
  rw [afterKwOpt_of_none _ _ has]
  have hfn : kwTake "function".data ("const".data ++ ' ' :: y) = none := by
    apply kwTake_none
    rw [hcl]
    exact leadsWith_cons_false 'f' "unction".data 'c' _ (by decide)
  rw [hfn]

theorem matchShape2_varBinding (nm rhs : List Char) (hn : goodIdent nm)
    (hr : ∀ hd, rhs.head? = some hd → pySpace hd = false)
    (hfn : (leadsWith "function".data (afterKwOpt "async".data rhs)
        || containsSub "=>".data
          ((afterKwOpt "async".data rhs).takeWhile (fun c => c ≠ '\n'))) = true) :
    matchShape2 ("const".data ++ ' ' :: (nm ++ ' ' :: '=' :: ' ' :: rhs))
      = some nm := by
  obtain ⟨hne, hni⟩ := hn
  unfold matchShape2
  dsimp only
  have hcl : "const".data ++ ' ' :: (nm ++ ' ' :: '=' :: ' ' :: rhs)
      = 'c' :: ("onst".data ++ ' ' :: (nm ++ ' ' :: '=' :: ' ' :: rhs)) := rfl
  have hdw : ("const".data ++ ' ' :: (nm ++ ' ' :: '=' :: ' ' :: rhs)).dropWhile pySpace
      = "const".data ++ ' ' :: (nm ++ ' ' :: '=' :: ' ' :: rhs) := by
    rw [hcl, List.dropWhile_cons_of_neg (by decide), ← hcl]
  rw [hdw]
  rw [kwTake_self "const".data (nm ++ ' ' :: '=' :: ' ' :: rhs)]
  dsimp only
  obtain ⟨n0, nmt, rfl⟩ : ∃ a t, nm = a :: t := by
    cases nm with
    | nil => exact absurd rfl hne
    | cons a t => exact ⟨a, t, rfl⟩
  have hn0 : pySpace n0 = false := identChar_not_pySpace n0 (hni n0 (by simp))
  have hdw2 : ((n0 :: nmt) ++ ' ' :: '=' :: ' ' :: rhs).dropWhile pySpace
      = (n0 :: nmt) ++ ' ' :: '=' :: ' ' :: rhs := by
    rw [List.cons_append, List.dropWhile_cons_of_neg (by simp [hn0])]
  rw [hdw2]
  have htw : ((n0 :: nmt) ++ ' ' :: '=' :: ' ' :: rhs).takeWhile identChar
      = n0 :: nmt :=
    takeWhile_append_stop _ _ ' ' ('=' :: ' ' :: rhs) hni (by decide)
  rw [htw, if_neg (by simp), List.drop_left,
    List.dropWhile_cons_of_pos (by decide), List.dropWhile_cons_of_neg (by decide)]
  have hca : charAfter '=' ('=' :: ' ' :: rhs) = some (' ' :: rhs) := by
    simp [charAfter]
  rw [hca]
  dsimp only
  rw [List.dropWhile_cons_of_pos (by decide),
    dropWhile_eq_self_of_head pySpace rhs hr, if_pos hfn]

/-- C1 (spec-modelled): the trailing-code function-name heuristic is not
implemented under `src/` (the tests read `result.function_name`, but neither
`parser.py` nor `models.py` defines it), so it is modelled from the spec:
every successful parse carries a `functionName` computed from the trailing
code; a named function declaration captures its identifier, a
`const`/`let`/`var` binding to a function or arrow expression captures the
bound identifier, a method-shorthand match captures the method identifier
when the earlier shapes fail, and when no shape matches the result is
`none`. -/
theorem c1_function_name :
    (∀ s ic r, parse s ic = .ok r →
        r.functionName = r.code.bind extractFunctionName)
      ∧ (∀ nm rest, goodIdent nm →
          extractFunctionName ("function".data ++ ' ' :: (nm ++ '(' :: rest))
            = some nm)
      ∧ (∀ nm rhs, goodIdent nm →
          (∀ hd, rhs.head? = some hd → pySpace hd = false) →
          (leadsWith "function".data (afterKwOpt "async".data rhs)
            || containsSub "=>".data
              ((afterKwOpt "async".data rhs).takeWhile (fun c => c ≠ '\n'))) = true →
          extractFunctionName
              ("const".data ++ ' ' :: (nm ++ ' ' :: '=' :: ' ' :: rhs))
            = some nm)
      ∧ (∀ l n, matchShape1 l = none → matchShape2 l = none →
          matchShape3 l = some n → extractFunctionName l = some n)
      ∧ (∀ l, matchShape1 l = none → matchShape2 l = none →
          matchShape3 l = none → extractFunctionName l = none) := by
  refine ⟨?_, ?_, ?_, ?_, ?_⟩
  · intro s ic r h
    rcases parse_ok_shape s ic r h with ⟨_, hr⟩ | ⟨_, hr⟩
    · subst hr
      rfl
    · subst hr
      unfold parseBlocksResult
      cases hM : findMainContent (extractBlocks s).1 <;> simp [hM]
  · intro nm rest hn
    unfold extractFunctionName
    rw [matchShape1_funcDecl nm rest hn]
  · intro nm rhs hn hr hfn
    unfold extractFunctionName
    rw [matchShape1_const_none (nm ++ ' ' :: '=' :: ' ' :: rhs)]
    dsimp only
    rw [matchShape2_varBinding nm rhs hn hr hfn]
  · intro l n h1 h2 h3
    unfold extractFunctionName
    rw [h1]
    dsimp only
    rw [h2]
    dsimp only
    rw [h3]
  · intro l h1 h2 h3
    unfold extractFunctionName
    rw [h1]
    dsimp only
    rw [h2]
    dsimp only
    rw [h3]

/-- C1 witness: the concrete declarations `function add(a, b)` and
`const f = () => 1` yield the declared identifiers. -/
theorem c1_function_name_witness :
    extractFunctionName ("function".data ++ ' ' :: ("add".data ++ '(' :: "a, b)".data))
      = some "add".data
      ∧ extractFunctionName
          ("const".data ++ ' ' :: ("f".data ++ ' ' :: '=' :: ' ' :: "() => 1".data))
        = some "f".data :=
  ⟨c1_function_name.2.1 "add".data "a, b)".data (by decide),
   c1_function_name.2.2.1 "f".data "() => 1".data (by decide) (by decide) (by decide)⟩

end JSDoc
